import Mathlib

/-!
Verification of the matchmaking-and-relay core of the OmegleClone signaling
server (`src/server.js`): the waiting queue, the pairing algorithm
(`pairUsers`), the active-pair table (`activePairs`, a `Map` of
socketId → partnerId), the teardown path (`removeUser`) and the socket
event handlers.

Modelling choices:
* A socket is identified by its id (an opaque string); the socket object's
  only other capability used by the core is `emit`, which we model by
  returning a list of outbound `OutEvent`s (target id first).
* `activePairs` (a JS `Map`) is an association list with `Map` semantics:
  `set` overwrites the entry in place when the key is present and appends
  otherwise, `get`/`has` look up the first matching key, `delete` removes
  the entries of a key.  Reachable maps always have pairwise distinct keys,
  so this is an exact model.
* `io.sockets.sockets` (the currently connected sockets) is the
  `connected` field; `io.sockets.sockets.get(partnerId)` succeeds exactly
  when `partnerId` is connected.
* In the relay handlers, `const partnerId = activePairs.get(socket.id);
  if (partnerId)` tests JS truthiness; socket ids are non-empty strings,
  so on the values a `Map` lookup can produce the test is exactly "the
  lookup succeeded", modelled by matching on the `Option`.
* `Date.now()` in the chat handler is an input (`now`).
-/

abbrev SessionId := String

/-- The `activePairs` map (`Map` of socketId → partnerId), as an
association list. -/
abbrev PairMap := List (SessionId × SessionId)

/-- `Map.prototype.get`: the value of the first entry with this key. -/
def mapGet (m : PairMap) (k : SessionId) : Option SessionId :=
  (m.find? (fun p => p.1 == k)).map (fun p => p.2)

/-- `Map.prototype.has`. -/
def mapHas (m : PairMap) (k : SessionId) : Bool :=
  m.any (fun p => p.1 == k)

/-- `Map.prototype.set`: overwrite in place if the key is present
(a JS `Map` keeps the original insertion position), append otherwise. -/
def mapSet (m : PairMap) (k v : SessionId) : PairMap :=
  if mapHas m k then
    m.map (fun p => if p.1 == k then (k, v) else p)
  else
    m ++ [(k, v)]

/-- `Map.prototype.delete`: drop the entries with this key. -/
def mapDelete (m : PairMap) (k : SessionId) : PairMap :=
  m.filter (fun p => p.1 != k)

/-- An outbound `socket.emit` / `io.to(...).emit`, tagged with the id of
the target socket (resp. room). -/
inductive OutEvent where
  | searching (target : SessionId)
  | paired (target : SessionId) (partnerId : SessionId)
  | offer (target : SessionId) (offer : String) (fromId : SessionId)
  | answer (target : SessionId) (answer : String) (fromId : SessionId)
  | iceCandidate (target : SessionId) (candidate : String) (fromId : SessionId)
  | chatMessage (target : SessionId) (message : String) (fromName : String)
      (timestamp : Nat)
  | partnerDisconnected (target : SessionId)
deriving Repr, DecidableEq

/-- The server's mutable state: `waitingQueue`, `activePairs`, and the
set of connected sockets (`io.sockets.sockets`), each socket represented
by its id. -/
structure ServerState where
  waitingQueue : List SessionId
  activePairs : PairMap
  connected : List SessionId
deriving Repr, DecidableEq

/-- `pairUsers()` (server.js lines 43–58): while the queue holds at least
two sockets, shift the two at the head, store both directions in
`activePairs`, and emit `paired` to each.  Returns the final queue, the
final map, and the emitted events in order. -/
def pairUsers : List SessionId → PairMap → List SessionId × PairMap × List OutEvent
  | user1 :: user2 :: rest, m =>
    let m1 := mapSet m user1 user2
    let m2 := mapSet m1 user2 user1
    let r := pairUsers rest m2
    (r.1, r.2.1, OutEvent.paired user1 user2 :: OutEvent.paired user2 user1 :: r.2.2)
  | q, m => (q, m, [])

/-- `removeUser(socketId)` (server.js lines 63–83): filter the queue, and
if `activePairs.has(socketId)` (equivalently: `get` succeeds), notify the
partner when its socket is still connected and delete both entries. -/
def removeUser (st : ServerState) (socketId : SessionId) : ServerState × List OutEvent :=
  let queue := st.waitingQueue.filter (fun user => user != socketId)
  match mapGet st.activePairs socketId with
  | some partnerId =>
    let evs := if st.connected.contains partnerId then
        [OutEvent.partnerDisconnected partnerId] else []
    ({ st with waitingQueue := queue,
               activePairs := mapDelete (mapDelete st.activePairs socketId) partnerId },
     evs)
  | none => ({ st with waitingQueue := queue }, [])

/-- The `start-search` handler (server.js lines 95–107): `removeUser`,
push onto the queue, emit `searching`, then `pairUsers`. -/
def handleStartSearch (st : ServerState) (id : SessionId) : ServerState × List OutEvent :=
  let r := removeUser st id
  let q := r.1.waitingQueue ++ [id]
  let p := pairUsers q r.1.activePairs
  ({ r.1 with waitingQueue := p.1, activePairs := p.2.1 },
   r.2 ++ OutEvent.searching id :: p.2.2)

/-- The `next` handler (server.js lines 166–174): `removeUser`, push onto
the queue, emit `searching`, then `pairUsers`. -/
def handleNext (st : ServerState) (id : SessionId) : ServerState × List OutEvent :=
  let r := removeUser st id
  let q := r.1.waitingQueue ++ [id]
  let p := pairUsers q r.1.activePairs
  ({ r.1 with waitingQueue := p.1, activePairs := p.2.1 },
   r.2 ++ OutEvent.searching id :: p.2.2)

/-- The `offer` handler (server.js lines 114–123). -/
def handleOffer (st : ServerState) (id : SessionId) (offer : String) :
    ServerState × List OutEvent :=
  match mapGet st.activePairs id with
  | some partnerId => (st, [OutEvent.offer partnerId offer id])
  | none => (st, [])

/-- The `answer` handler (server.js lines 126–135). -/
def handleAnswer (st : ServerState) (id : SessionId) (answer : String) :
    ServerState × List OutEvent :=
  match mapGet st.activePairs id with
  | some partnerId => (st, [OutEvent.answer partnerId answer id])
  | none => (st, [])

/-- The `ice-candidate` handler (server.js lines 138–147). -/
def handleIceCandidate (st : ServerState) (id : SessionId) (candidate : String) :
    ServerState × List OutEvent :=
  match mapGet st.activePairs id with
  | some partnerId => (st, [OutEvent.iceCandidate partnerId candidate id])
  | none => (st, [])

/-- The `chat-message` handler (server.js lines 152–161); `now` is the
value of `Date.now()`. -/
def handleChatMessage (st : ServerState) (id : SessionId) (message : String) (now : Nat) :
    ServerState × List OutEvent :=
  match mapGet st.activePairs id with
  | some partnerId => (st, [OutEvent.chatMessage partnerId message "Stranger" now])
  | none => (st, [])

/-- The `stop-search` handler (server.js lines 176–179). -/
def handleStopSearch (st : ServerState) (id : SessionId) : ServerState × List OutEvent :=
  removeUser st id

/-- A new connection (server.js line 89): the socket joins
`io.sockets.sockets`. -/
def handleConnect (st : ServerState) (id : SessionId) : ServerState × List OutEvent :=
  ({ st with connected := st.connected ++ [id] }, [])

/-- The `disconnect` handler (server.js lines 184–187): the socket leaves
`io.sockets.sockets` and `removeUser` runs. -/
def handleDisconnect (st : ServerState) (id : SessionId) : ServerState × List OutEvent :=
  removeUser { st with connected := st.connected.filter (fun c => c != id) } id

/-- One inbound event, tagged with the id of the socket it arrives on. -/
inductive Event where
  | connect (id : SessionId)
  | startSearch (id : SessionId)
  | offer (id : SessionId) (payload : String)
  | answer (id : SessionId) (payload : String)
  | iceCandidate (id : SessionId) (payload : String)
  | chatMessage (id : SessionId) (message : String) (now : Nat)
  | next (id : SessionId)
  | stopSearch (id : SessionId)
  | disconnect (id : SessionId)
deriving Repr, DecidableEq

/-- Dispatch one inbound event to its handler.  The runtime processes one
event to completion before the next begins, so a run of the server is a
fold of this function. -/
def handleEvent (st : ServerState) : Event → ServerState × List OutEvent
  | Event.connect id => handleConnect st id
  | Event.startSearch id => handleStartSearch st id
  | Event.offer id payload => handleOffer st id payload
  | Event.answer id payload => handleAnswer st id payload
  | Event.iceCandidate id payload => handleIceCandidate st id payload
  | Event.chatMessage id message now => handleChatMessage st id message now
  | Event.next id => handleNext st id
  | Event.stopSearch id => handleStopSearch st id
  | Event.disconnect id => handleDisconnect st id

/-- The state at process start: empty queue, empty map (server.js
lines 33–34), no connections. -/
def initState : ServerState := ⟨[], [], []⟩

/-- The state after processing a list of inbound events in order. -/
def run (es : List Event) : ServerState :=
  es.foldl (fun st e => (handleEvent st e).1) initState

/-- The FIFO pairing order: consecutive head pairs of the queue. -/
def fifoChunks : List SessionId → List (SessionId × SessionId)
  | a :: b :: rest => (a, b) :: fifoChunks rest
  | _ => []

/-- Insert a list of pairs into the map, both directions each. -/
def insertChunks (m : PairMap) (l : List (SessionId × SessionId)) : PairMap :=
  l.foldl (fun acc p => mapSet (mapSet acc p.1 p.2) p.2 p.1) m

/-- The `paired` notifications for a list of pairs. -/
def pairedEvents (l : List (SessionId × SessionId)) : List OutEvent :=
  l.flatMap (fun p => [OutEvent.paired p.1 p.2, OutEvent.paired p.2 p.1])

/-- Decidable check that the pair table is symmetric and irreflexive:
every entry `a→b` has `a ≠ b` and a companion entry `b→a`. -/
def pairSymCheck (m : PairMap) : Bool :=
  m.all (fun p => p.1 != p.2 && m.any (fun q => q.1 == p.2 && q.2 == p.1))

/-- The spec's `insert_pair(a,b)`: set both directions, as `pairUsers`
does (server.js lines 49–50). -/
def insertPair (m : PairMap) (a b : SessionId) : PairMap :=
  mapSet (mapSet m a b) b a

/-- The spec's Active Pair Table `remove(id)`, as realized inside
`removeUser` (server.js lines 68–79): look up the partner; if present
delete both entries and return it, else leave the map alone and return
absent. -/
def tableRemove (m : PairMap) (id : SessionId) : PairMap × Option SessionId :=
  match mapGet m id with
  | some partnerId => (mapDelete (mapDelete m id) partnerId, some partnerId)
  | none => (m, none)

/-! ### Basic lemmas about the `Map` model -/

theorem mapGet_nil (k : SessionId) : mapGet [] k = none := rfl

theorem mapGet_cons_self {a b : SessionId} {t : PairMap} :
    mapGet ((a, b) :: t) a = some b := by
  rw [mapGet, List.find?_cons_of_pos _ (by simp)]
  rfl

theorem mapGet_cons_of_ne {a k' : SessionId} (b : SessionId) (t : PairMap) (h : a ≠ k') :
    mapGet ((a, b) :: t) k' = mapGet t k' := by
  rw [mapGet, List.find?_cons_of_neg _ (by simp [h]), ← mapGet]

theorem mapHas_cons {a b k : SessionId} {t : PairMap} :
    mapHas ((a, b) :: t) k = ((a == k) || mapHas t k) := rfl

theorem mapHas_nil (k : SessionId) : mapHas [] k = false := rfl

theorem mapHas_eq_isSome_mapGet (m : PairMap) (k : SessionId) :
    mapHas m k = (mapGet m k).isSome := by
  induction m with
  | nil => rfl
  | cons hd t ih =>
    obtain ⟨a, b⟩ := hd
    by_cases h : a = k
    · subst h
      simp [mapHas_cons, mapGet_cons_self]
    · rw [mapHas_cons, mapGet_cons_of_ne b t h, beq_eq_false_iff_ne.mpr h,
        Bool.false_or, ih]

theorem mapDelete_nil (k : SessionId) : mapDelete [] k = [] := rfl

theorem mapDelete_cons_self {a b k : SessionId} {t : PairMap} (h : a = k) :
    mapDelete ((a, b) :: t) k = mapDelete t k := by
  simp [mapDelete, List.filter_cons, h]

theorem mapDelete_cons_ne {a b k : SessionId} {t : PairMap} (h : a ≠ k) :
    mapDelete ((a, b) :: t) k = (a, b) :: mapDelete t k := by
  simp [mapDelete, List.filter_cons, h]

theorem mapGet_mapDelete (m : PairMap) (k k' : SessionId) :
    mapGet (mapDelete m k) k' = if k' = k then none else mapGet m k' := by
  induction m with
  | nil => simp [mapGet_nil, mapDelete_nil]
  | cons hd t ih =>
    obtain ⟨a, b⟩ := hd
    by_cases hak : a = k
    · subst hak
      rw [mapDelete_cons_self rfl, ih]
      by_cases hk : k' = a
      · simp [hk]
      · rw [if_neg hk, if_neg hk, mapGet_cons_of_ne b t (Ne.symm hk)]
    · rw [mapDelete_cons_ne hak]
      by_cases hk : k' = a
      · subst hk
        rw [mapGet_cons_self, if_neg hak, mapGet_cons_self]
      · rw [mapGet_cons_of_ne _ _ (Ne.symm hk), ih]
        by_cases hkk : k' = k
        · simp [hkk]
        · rw [if_neg hkk, if_neg hkk, mapGet_cons_of_ne b t (Ne.symm hk)]

theorem mapGet_map_replace (m : PairMap) (k v k' : SessionId) :
    mapGet (m.map (fun p => if p.1 == k then (k, v) else p)) k' =
      if k' = k then (if mapHas m k then some v else none) else mapGet m k' := by
  induction m with
  | nil =>
    by_cases hk : k' = k <;> simp [hk, mapGet_nil, mapHas_nil]
  | cons hd t ih =>
    obtain ⟨a, b⟩ := hd
    rw [List.map_cons]
    by_cases hak : a = k
    · subst hak
      rw [if_pos (by simp), mapHas_cons, beq_self_eq_true, Bool.true_or]
      by_cases hk : k' = a
      · subst hk
        rw [mapGet_cons_self]
        simp
      · rw [mapGet_cons_of_ne _ _ (Ne.symm hk), mapGet_cons_of_ne b t (Ne.symm hk), ih,
          if_neg hk, if_neg hk]
    · rw [if_neg (by simp [hak]), mapHas_cons, beq_eq_false_iff_ne.mpr hak, Bool.false_or]
      by_cases hk : k' = a
      · subst hk
        rw [mapGet_cons_self, if_neg hak, mapGet_cons_self]
      · rw [mapGet_cons_of_ne _ _ (Ne.symm hk), mapGet_cons_of_ne b t (Ne.symm hk), ih]

theorem mapGet_append_single (m : PairMap) (k v k' : SessionId) (h : mapGet m k = none) :
    mapGet (m ++ [(k, v)]) k' = if k' = k then some v else mapGet m k' := by
  induction m with
  | nil =>
    by_cases hk : k' = k
    · subst hk; simp [mapGet_cons_self]
    · rw [List.nil_append, mapGet_cons_of_ne _ _ (fun he => hk he.symm), if_neg hk]
  | cons hd t ih =>
    obtain ⟨a, b⟩ := hd
    have hak : a ≠ k := by
      intro he
      subst he
      rw [mapGet_cons_self] at h
      exact Option.noConfusion h
    have ht : mapGet t k = none := by rwa [mapGet_cons_of_ne b t hak] at h
    rw [List.cons_append]
    by_cases hk : k' = a
    · subst hk
      rw [mapGet_cons_self, if_neg hak, mapGet_cons_self]
    · rw [mapGet_cons_of_ne _ _ (Ne.symm hk), mapGet_cons_of_ne b t (Ne.symm hk), ih ht]

theorem mapGet_eq_none_of_not_has {m : PairMap} {k : SessionId} (h : mapHas m k = false) :
    mapGet m k = none := by
  rw [mapHas_eq_isSome_mapGet] at h
  exact Option.not_isSome_iff_eq_none.mp (by simp [h])

theorem mapGet_mapSet (m : PairMap) (k v k' : SessionId) :
    mapGet (mapSet m k v) k' = if k' = k then some v else mapGet m k' := by
  by_cases hhas : mapHas m k = true
  · rw [mapSet, if_pos hhas, mapGet_map_replace, hhas]
    rfl
  · rw [mapSet, if_neg hhas,
      mapGet_append_single m k v k' (mapGet_eq_none_of_not_has (by simpa using hhas))]

theorem mapHas_mapSet (m : PairMap) (k v k' : SessionId) :
    mapHas (mapSet m k v) k' = (if k' = k then true else mapHas m k') := by
  rw [mapHas_eq_isSome_mapGet, mapGet_mapSet]
  by_cases hk : k' = k
  · simp [hk]
  · simp [hk, mapHas_eq_isSome_mapGet]

theorem mapHas_mapDelete (m : PairMap) (k k' : SessionId) :
    mapHas (mapDelete m k) k' = (if k' = k then false else mapHas m k') := by
  rw [mapHas_eq_isSome_mapGet, mapGet_mapDelete]
  by_cases hk : k' = k
  · simp [hk]
  · simp [hk, mapHas_eq_isSome_mapGet]

theorem mem_of_mapGet_eq_some {m : PairMap} {k v : SessionId} (h : mapGet m k = some v) :
    (k, v) ∈ m := by
  rw [mapGet] at h
  rcases hf : m.find? (fun p => p.1 == k) with _ | p0
  · rw [hf] at h
    exact absurd h (by simp)
  · rw [hf] at h
    have hp1 : p0.1 = k := by
      have := List.find?_some hf
      simpa using this
    have hp2 : p0.2 = v := by simpa using h
    have hp : p0 = (k, v) := by
      obtain ⟨x, y⟩ := p0
      simp_all
    exact hp ▸ List.mem_of_find?_eq_some hf

theorem mapHas_of_mem {m : PairMap} {k v : SessionId} (h : (k, v) ∈ m) :
    mapHas m k = true := by
  rw [mapHas, List.any_eq_true]
  exact ⟨(k, v), h, by simp⟩

def keysNodup (m : PairMap) : Prop := (m.map Prod.fst).Nodup

theorem mapGet_eq_some_of_mem {m : PairMap} (hnd : keysNodup m) {k v : SessionId}
    (hmem : (k, v) ∈ m) : mapGet m k = some v := by
  induction m with
  | nil => cases hmem
  | cons hd t ih =>
    obtain ⟨a, b⟩ := hd
    rw [keysNodup, List.map_cons, List.nodup_cons] at hnd
    obtain ⟨ha, hnd'⟩ := hnd
    rcases List.mem_cons.mp hmem with heq | hmem'
    · obtain ⟨h1, h2⟩ := Prod.mk.injEq k v a b ▸ heq
      subst h1
      subst h2
      exact mapGet_cons_self
    · have hka : a ≠ k := by
        intro he
        subst he
        exact ha (List.mem_map.mpr ⟨(a, v), hmem', rfl⟩)
      rw [mapGet_cons_of_ne b t hka]
      exact ih hnd' hmem'

theorem mem_mapDelete_iff {m : PairMap} {k : SessionId} {p : SessionId × SessionId} :
    p ∈ mapDelete m k ↔ p ∈ m ∧ p.1 ≠ k := by
  simp [mapDelete, List.mem_filter]

theorem keysNodup_mapDelete {m : PairMap} (k : SessionId) (hnd : keysNodup m) :
    keysNodup (mapDelete m k) := by
  exact List.Nodup.sublist (List.Sublist.map Prod.fst (List.filter_sublist m)) hnd

theorem mapDelete_eq_self_of_not_has {m : PairMap} {k : SessionId}
    (h : mapHas m k = false) : mapDelete m k = m := by
  rw [mapDelete, List.filter_eq_self]
  intro p hp
  rw [bne_iff_ne]
  intro he
  simp only [mapHas] at h
  rw [List.any_eq_false] at h
  exact h p hp (by simp [he])

def symClosed (m : PairMap) : Prop := ∀ p ∈ m, p.1 ≠ p.2 ∧ (p.2, p.1) ∈ m

theorem length_mapDelete_of_mem_keys {m : PairMap} {k : SessionId}
    (hnd : keysNodup m) (hk : mapHas m k = true) :
    (mapDelete m k).length + 1 = m.length := by
  induction m with
  | nil => cases hk
  | cons hd t ih =>
    obtain ⟨a, b⟩ := hd
    rw [keysNodup, List.map_cons, List.nodup_cons] at hnd
    obtain ⟨ha, hnd'⟩ := hnd
    by_cases hak : a = k
    · subst hak
      have hnot : mapHas t a = false := by
        rw [mapHas_eq_isSome_mapGet]
        rcases hg : mapGet t a with _ | v
        · rfl
        · exact absurd (List.mem_map.mpr ⟨(a, v), mem_of_mapGet_eq_some hg, rfl⟩) ha
      rw [mapDelete_cons_self rfl, mapDelete_eq_self_of_not_has hnot, List.length_cons]
    · rw [mapDelete_cons_ne hak, List.length_cons, List.length_cons]
      rw [mapHas_cons, beq_eq_false_iff_ne.mpr hak, Bool.false_or] at hk
      rw [ih hnd' hk]

theorem symClosed_length_even : ∀ n : Nat, ∀ m : PairMap, m.length ≤ n → keysNodup m →
    symClosed m → m.length % 2 = 0 := by
  intro n
  induction n with
  | zero =>
    intro m hlen _ _
    rw [Nat.le_zero, List.length_eq_zero] at hlen
    subst hlen
    rfl
  | succ n ih =>
    intro m hlen hnd hsym
    match m with
    | [] => rfl
    | (a, b) :: t =>
      obtain ⟨hab, hba⟩ := hsym (a, b) (List.mem_cons_self _ _)
      simp only at hab hba
      rw [keysNodup, List.map_cons, List.nodup_cons] at hnd
      obtain ⟨ha, hnd'⟩ := hnd
      have hba' : (b, a) ∈ t := by
        rcases List.mem_cons.mp hba with h | h
        · exact absurd (congrArg Prod.fst h) hab.symm
        · exact h
      have hbkeys : mapHas t b = true := mapHas_of_mem hba'
      have hlen2 : (mapDelete t b).length + 1 = t.length :=
        length_mapDelete_of_mem_keys hnd' hbkeys
      have hsym' : symClosed (mapDelete t b) := by
        intro p hp
        obtain ⟨hpt, hpb⟩ := mem_mapDelete_iff.mp hp
        obtain ⟨hne, hrev⟩ := hsym p (List.mem_cons_of_mem _ hpt)
        refine ⟨hne, ?_⟩
        have hrevt : (p.2, p.1) ∈ t := by
          rcases List.mem_cons.mp hrev with h | h
          · exfalso
            have h2 : p.1 = b := congrArg Prod.snd h
            exact hpb h2
          · exact h
        rw [mem_mapDelete_iff]
        refine ⟨hrevt, ?_⟩
        show p.2 ≠ b
        intro hp2b
        have hget1 : mapGet t b = some p.1 := by
          have heq : ((p.2 : SessionId), p.1) = (b, p.1) := by rw [hp2b]
          exact mapGet_eq_some_of_mem hnd' (heq ▸ hrevt)
        have hget2 : mapGet t b = some a := mapGet_eq_some_of_mem hnd' hba'
        rw [hget1] at hget2
        injection hget2 with hpa
        apply ha
        rw [← hpa]
        exact List.mem_map.mpr ⟨p, hpt, rfl⟩
      have hnd'' : keysNodup (mapDelete t b) := keysNodup_mapDelete b hnd'
      have hlenle : (mapDelete t b).length ≤ n := by
        rw [List.length_cons] at hlen
        omega
      have := ih (mapDelete t b) hlenle hnd'' hsym'
      rw [List.length_cons, ← hlen2]
      omega

/-! ### The state invariant -/

theorem mapHas_iff_mem_keys {m : PairMap} {k : SessionId} :
    mapHas m k = true ↔ k ∈ m.map Prod.fst := by
  rw [mapHas, List.any_eq_true]
  constructor
  · rintro ⟨p, hp, hpk⟩
    exact List.mem_map.mpr ⟨p, hp, by simpa using hpk⟩
  · intro h
    obtain ⟨p, hp, hpk⟩ := List.mem_map.mp h
    exact ⟨p, hp, by simp [hpk]⟩

theorem mapSet_eq_append {m : PairMap} {k : SessionId} (v : SessionId)
    (h : mapHas m k = false) : mapSet m k v = m ++ [(k, v)] := by
  rw [mapSet, if_neg (by simp [h])]

theorem pairUsers_nil (m : PairMap) : pairUsers [] m = ([], m, []) := rfl

theorem pairUsers_single (x : SessionId) (m : PairMap) :
    pairUsers [x] m = ([x], m, []) := rfl

theorem pairUsers_cons_cons (u1 u2 : SessionId) (rest : List SessionId) (m : PairMap) :
    pairUsers (u1 :: u2 :: rest) m =
      ((pairUsers rest (mapSet (mapSet m u1 u2) u2 u1)).1,
       (pairUsers rest (mapSet (mapSet m u1 u2) u2 u1)).2.1,
       OutEvent.paired u1 u2 :: OutEvent.paired u2 u1 ::
         (pairUsers rest (mapSet (mapSet m u1 u2) u2 u1)).2.2) := rfl

/-- The server-state invariant: the pair table has pairwise distinct keys,
is symmetric and irreflexive, and the waiting queue has no duplicates and
is disjoint from the pair table's keys. -/
def StateInv (st : ServerState) : Prop :=
  keysNodup st.activePairs ∧ symClosed st.activePairs ∧
  st.waitingQueue.Nodup ∧ ∀ id ∈ st.waitingQueue, mapHas st.activePairs id = false

theorem pairUsers_inv : ∀ (q : List SessionId) (m : PairMap),
    q.Nodup → (∀ id ∈ q, mapHas m id = false) → keysNodup m → symClosed m →
    (pairUsers q m).1.Nodup ∧
    (∀ id ∈ (pairUsers q m).1, mapHas (pairUsers q m).2.1 id = false) ∧
    keysNodup (pairUsers q m).2.1 ∧ symClosed (pairUsers q m).2.1 := by
  intro q m
  induction q, m using pairUsers.induct with
  | case2 q m hnp =>
    intro hnd hdisj hknd hsym
    have hq : pairUsers q m = (q, m, []) := by
      match q, hnp with
      | [], _ => rfl
      | [x], _ => rfl
      | a :: b :: rest, hnp => exact ((hnp a b rest rfl).elim)
    rw [hq]
    exact ⟨hnd, hdisj, hknd, hsym⟩
  | case1 u1 u2 rest m m1 m2 ih =>
    intro hnd hdisj hknd hsym
    rw [List.nodup_cons, List.nodup_cons] at hnd
    obtain ⟨h1, h2, hrestnd⟩ := hnd
    have hu12 : u1 ≠ u2 := fun h => h1 (h ▸ List.mem_cons_self _ _)
    have hu1rest : u1 ∉ rest := fun h => h1 (List.mem_cons_of_mem _ h)
    have hd1 : mapHas m u1 = false := hdisj u1 (List.mem_cons_self _ _)
    have hd2 : mapHas m u2 = false :=
      hdisj u2 (List.mem_cons_of_mem _ (List.mem_cons_self _ _))
    have hm1has : mapHas (mapSet m u1 u2) u2 = false := by
      rw [mapHas_mapSet, if_neg (Ne.symm hu12)]
      exact hd2
    have hm2 : mapSet (mapSet m u1 u2) u2 u1 = m ++ [(u1, u2), (u2, u1)] := by
      rw [mapSet_eq_append u1 hm1has, mapSet_eq_append u2 hd1, List.append_assoc]
      rfl
    have hknd2 : keysNodup (mapSet (mapSet m u1 u2) u2 u1) := by
      rw [hm2, keysNodup, List.map_append, List.nodup_append]
      refine ⟨hknd, by simp [hu12], ?_⟩
      intro x hx hmem
      simp only [List.map_cons, List.map_nil, List.mem_cons, List.not_mem_nil,
        or_false] at hmem
      rcases hmem with h | h
      · exact absurd (mapHas_iff_mem_keys.mpr (h ▸ hx)) (by simp [hd1])
      · exact absurd (mapHas_iff_mem_keys.mpr (h ▸ hx)) (by simp [hd2])
    have hsym2 : symClosed (mapSet (mapSet m u1 u2) u2 u1) := by
      intro p hp
      rw [hm2] at hp
      rcases List.mem_append.mp hp with hpm | hpnew
      · obtain ⟨hne, hrev⟩ := hsym p hpm
        exact ⟨hne, by rw [hm2]; exact List.mem_append.mpr (Or.inl hrev)⟩
      · simp only [List.mem_cons, List.not_mem_nil, or_false] at hpnew
        rcases hpnew with h | h
        · subst h
          exact ⟨hu12, by rw [hm2]; simp⟩
        · subst h
          exact ⟨Ne.symm hu12, by rw [hm2]; simp⟩
    have hdisj2 : ∀ id ∈ rest, mapHas (mapSet (mapSet m u1 u2) u2 u1) id = false := by
      intro id hid
      have hne1 : id ≠ u1 := fun h => hu1rest (h ▸ hid)
      have hne2 : id ≠ u2 := fun h => h2 (h ▸ hid)
      rw [mapHas_mapSet, if_neg hne2, mapHas_mapSet, if_neg hne1]
      exact hdisj id (List.mem_cons_of_mem _ (List.mem_cons_of_mem _ hid))
    have hres := ih hrestnd hdisj2 hknd2 hsym2
    rw [pairUsers_cons_cons]
    exact hres

theorem mem_double_delete_iff {m : PairMap} {a b : SessionId} {p : SessionId × SessionId} :
    p ∈ mapDelete (mapDelete m a) b ↔ p ∈ m ∧ p.1 ≠ a ∧ p.1 ≠ b := by
  rw [mem_mapDelete_iff, mem_mapDelete_iff]
  tauto

theorem symClosed_remove_pair {m : PairMap} {a b : SessionId}
    (hnd : keysNodup m) (hsym : symClosed m) (hget : mapGet m a = some b) :
    symClosed (mapDelete (mapDelete m a) b) := by
  intro p hp
  obtain ⟨hpm, hpa, hpb⟩ := mem_double_delete_iff.mp hp
  obtain ⟨hne, hrev⟩ := hsym p hpm
  refine ⟨hne, mem_double_delete_iff.mpr ⟨hrev, ?_, ?_⟩⟩
  · show p.2 ≠ a
    intro h2a
    have hg2 : mapGet m a = some p.1 := by
      have heq : ((p.2 : SessionId), p.1) = (a, p.1) := by rw [h2a]
      exact mapGet_eq_some_of_mem hnd (heq ▸ hrev)
    rw [hget] at hg2
    injection hg2 with hb
    exact hpb hb.symm
  · show p.2 ≠ b
    intro h2b
    have hab : (a, b) ∈ m := mem_of_mapGet_eq_some hget
    have hba : ((b : SessionId), a) ∈ m := (hsym (a, b) hab).2
    have hg1 : mapGet m b = some p.1 := by
      have heq : ((p.2 : SessionId), p.1) = (b, p.1) := by rw [h2b]
      exact mapGet_eq_some_of_mem hnd (heq ▸ hrev)
    have hg2 : mapGet m b = some a := mapGet_eq_some_of_mem hnd hba
    rw [hg1] at hg2
    injection hg2 with ha
    exact hpa ha

theorem removeUser_eq_none {st : ServerState} {socketId : SessionId}
    (h : mapGet st.activePairs socketId = none) :
    removeUser st socketId =
      ({ st with waitingQueue := st.waitingQueue.filter (fun user => user != socketId) },
       []) := by
  simp only [removeUser, h]

theorem removeUser_eq_some {st : ServerState} {socketId partnerId : SessionId}
    (h : mapGet st.activePairs socketId = some partnerId) :
    removeUser st socketId =
      ({ st with
          waitingQueue := st.waitingQueue.filter (fun user => user != socketId),
          activePairs := mapDelete (mapDelete st.activePairs socketId) partnerId },
       if st.connected.contains partnerId then [OutEvent.partnerDisconnected partnerId]
       else []) := by
  simp only [removeUser, h]

theorem removeUser_inv (st : ServerState) (id : SessionId) (h : StateInv st) :
    StateInv (removeUser st id).1 := by
  obtain ⟨hknd, hsym, hqnd, hdisj⟩ := h
  rcases hg : mapGet st.activePairs id with _ | partnerId
  · rw [removeUser_eq_none hg]
    refine ⟨hknd, hsym, List.Nodup.filter _ hqnd, ?_⟩
    intro x hx
    exact hdisj x (List.mem_filter.mp hx).1
  · rw [removeUser_eq_some hg]
    refine ⟨keysNodup_mapDelete _ (keysNodup_mapDelete _ hknd),
      symClosed_remove_pair hknd hsym hg, List.Nodup.filter _ hqnd, ?_⟩
    intro x hx
    have hxm : mapHas st.activePairs x = false := hdisj x (List.mem_filter.mp hx).1
    rw [mapHas_mapDelete]
    by_cases h1 : x = partnerId
    · simp [h1]
    · rw [if_neg h1, mapHas_mapDelete]
      by_cases h2 : x = id
      · simp [h2]
      · rw [if_neg h2]
        exact hxm

theorem removeUser_id_gone (st : ServerState) (id : SessionId) :
    id ∉ (removeUser st id).1.waitingQueue ∧
    mapHas (removeUser st id).1.activePairs id = false := by
  rcases hg : mapGet st.activePairs id with _ | partnerId
  · rw [removeUser_eq_none hg]
    constructor
    · intro hmem
      have := (List.mem_filter.mp hmem).2
      simp at this
    · show mapHas st.activePairs id = false
      rw [mapHas_eq_isSome_mapGet, hg]
      rfl
  · rw [removeUser_eq_some hg]
    constructor
    · intro hmem
      have := (List.mem_filter.mp hmem).2
      simp at this
    · show mapHas (mapDelete (mapDelete st.activePairs id) partnerId) id = false
      rw [mapHas_mapDelete]
      by_cases h1 : id = partnerId
      · simp [h1]
      · rw [if_neg h1, mapHas_mapDelete, if_pos rfl]

theorem handleStartSearch_inv (st : ServerState) (id : SessionId) (h : StateInv st) :
    StateInv (handleStartSearch st id).1 := by
  obtain ⟨hq, hm⟩ := removeUser_id_gone st id
  obtain ⟨hknd, hsym, hqnd, hdisj⟩ := removeUser_inv st id h
  have hqnd' : ((removeUser st id).1.waitingQueue ++ [id]).Nodup := by
    rw [List.nodup_append]
    refine ⟨hqnd, List.nodup_singleton id, ?_⟩
    intro x hx hxid
    simp only [List.mem_singleton] at hxid
    exact hq (hxid ▸ hx)
  have hdisj' : ∀ x ∈ (removeUser st id).1.waitingQueue ++ [id],
      mapHas (removeUser st id).1.activePairs x = false := by
    intro x hx
    rcases List.mem_append.mp hx with h1 | h1
    · exact hdisj x h1
    · simp only [List.mem_singleton] at h1
      subst h1
      exact hm
  have hres := pairUsers_inv _ _ hqnd' hdisj' hknd hsym
  exact ⟨hres.2.2.1, hres.2.2.2, hres.1, hres.2.1⟩

theorem handleOffer_fst (st : ServerState) (id : SessionId) (payload : String) :
    (handleOffer st id payload).1 = st := by
  rcases hg : mapGet st.activePairs id with _ | p <;> simp [handleOffer, hg]

theorem handleAnswer_fst (st : ServerState) (id : SessionId) (payload : String) :
    (handleAnswer st id payload).1 = st := by
  rcases hg : mapGet st.activePairs id with _ | p <;> simp [handleAnswer, hg]

theorem handleIceCandidate_fst (st : ServerState) (id : SessionId) (payload : String) :
    (handleIceCandidate st id payload).1 = st := by
  rcases hg : mapGet st.activePairs id with _ | p <;> simp [handleIceCandidate, hg]

theorem handleChatMessage_fst (st : ServerState) (id : SessionId) (message : String)
    (now : Nat) : (handleChatMessage st id message now).1 = st := by
  rcases hg : mapGet st.activePairs id with _ | p <;> simp [handleChatMessage, hg]

theorem handleEvent_inv (st : ServerState) (e : Event) (h : StateInv st) :
    StateInv (handleEvent st e).1 := by
  cases e with
  | connect id => exact ⟨h.1, h.2.1, h.2.2.1, h.2.2.2⟩
  | startSearch id => exact handleStartSearch_inv st id h
  | offer id payload => rw [handleEvent, handleOffer_fst]; exact h
  | answer id payload => rw [handleEvent, handleAnswer_fst]; exact h
  | iceCandidate id payload => rw [handleEvent, handleIceCandidate_fst]; exact h
  | chatMessage id message now => rw [handleEvent, handleChatMessage_fst]; exact h
  | next id => exact handleStartSearch_inv st id h
  | stopSearch id => exact removeUser_inv st id h
  | disconnect id =>
    exact removeUser_inv { st with connected := st.connected.filter (fun c => c != id) } id
      ⟨h.1, h.2.1, h.2.2.1, h.2.2.2⟩

theorem initState_inv : StateInv initState := by
  refine ⟨?_, ?_, ?_, ?_⟩
  · simp [keysNodup, initState]
  · intro p hp
    cases hp
  · exact List.nodup_nil
  · intro x hx
    cases hx

theorem run_inv (es : List Event) : StateInv (run es) := by
  rw [run]
  have : ∀ (l : List Event) (st : ServerState), StateInv st →
      StateInv (l.foldl (fun s e => (handleEvent s e).1) st) := by
    intro l
    induction l with
    | nil => intro st h; exact h
    | cons e es ih =>
      intro st h
      exact ih _ (handleEvent_inv st e h)
  exact this es initState initState_inv

/-! ### Characterization of `pairUsers` -/

theorem pairUsers_eq : ∀ (q : List SessionId) (m : PairMap),
    pairUsers q m =
      (q.drop (2 * (q.length / 2)), insertChunks m (fifoChunks q),
       pairedEvents (fifoChunks q)) := by
  intro q m
  induction q, m using pairUsers.induct with
  | case2 q m hnp =>
    match q, hnp with
    | [], _ => simp [pairUsers_nil, fifoChunks, insertChunks, pairedEvents]
    | [x], _ => simp [pairUsers_single, fifoChunks, insertChunks, pairedEvents]
    | a :: b :: rest, hnp => exact (hnp a b rest rfl).elim
  | case1 u1 u2 rest m m1 m2 ih =>
    rw [pairUsers_cons_cons, ih]
    simp only [fifoChunks, insertChunks, pairedEvents, List.foldl_cons,
      List.flatMap_cons, List.length_cons]
    have harith : 2 * ((rest.length + 1 + 1) / 2) = 2 * (rest.length / 2) + 1 + 1 := by
      omega
    rw [harith, List.drop_succ_cons, List.drop_succ_cons]
    rfl

theorem symClosed_even_card {m : PairMap} (hnd : keysNodup m) (hsym : symClosed m) :
    m.length % 2 = 0 :=
  symClosed_length_even m.length m le_rfl hnd hsym

theorem pairSymCheck_of_symClosed {m : PairMap} (hsym : symClosed m) :
    pairSymCheck m = true := by
  rw [pairSymCheck, List.all_eq_true]
  intro p hp
  obtain ⟨hne, hrev⟩ := hsym p hp
  rw [Bool.and_eq_true]
  refine ⟨by simpa using hne, ?_⟩
  rw [List.any_eq_true]
  exact ⟨(p.2, p.1), hrev, by simp⟩

/-! ### The claims -/

/-- Claim C1: a single invocation of `pairUsers` removes the sessions from
the head of the queue two at a time in FIFO arrival order, inserting both
directions of each consecutive head pair and emitting the matching
`paired` events; if the queue length was even no session is left waiting,
if odd exactly one remains. -/
theorem pairUsers_fifo_drain (q : List SessionId) (m : PairMap) :
    pairUsers q m =
      (q.drop (2 * (q.length / 2)), insertChunks m (fifoChunks q),
       pairedEvents (fifoChunks q)) ∧
    (q.length % 2 = 0 → (pairUsers q m).1 = []) ∧
    (q.length % 2 = 1 → (pairUsers q m).1.length = 1) := by
  refine ⟨pairUsers_eq q m, ?_, ?_⟩
  · intro heven
    rw [pairUsers_eq q m]
    show q.drop (2 * (q.length / 2)) = []
    have h2 : 2 * (q.length / 2) = q.length := by omega
    rw [h2, List.drop_length]
  · intro hodd
    rw [pairUsers_eq q m]
    show (q.drop (2 * (q.length / 2))).length = 1
    rw [List.length_drop]
    omega

theorem pairUsers_fifo_drain_witness :
    (pairUsers ["a", "b"] []).1 = [] ∧ (pairUsers ["a", "b", "c"] []).1.length = 1 :=
  ⟨(pairUsers_fifo_drain ["a", "b"] []).2.1 (by decide),
   (pairUsers_fifo_drain ["a", "b", "c"] []).2.2 (by decide)⟩

/-- Claim C2: in every state reachable by any sequence of inbound events,
the active pair table is symmetric — every entry `a→b` is accompanied by
`b→a` — and its size is even. -/
theorem run_activePairs_symmetric_even (es : List Event) :
    pairSymCheck (run es).activePairs = true ∧
    (run es).activePairs.length % 2 = 0 := by
  obtain ⟨hknd, hsym, -, -⟩ := run_inv es
  exact ⟨pairSymCheck_of_symClosed hsym, symClosed_even_card hknd hsym⟩

/-- Claim C3: in every state reachable by any sequence of inbound events,
no session id is simultaneously in the waiting queue and a key of the
active pair table, and the queue holds each id at most once: a session is
idle, waiting, or paired, never two of these at once. -/
theorem run_waiting_disjoint_pairs (es : List Event) :
    ((run es).waitingQueue.all fun id => !(mapHas (run es).activePairs id)) = true ∧
    (run es).waitingQueue.Nodup := by
  obtain ⟨-, -, hqnd, hdisj⟩ := run_inv es
  refine ⟨?_, hqnd⟩
  rw [List.all_eq_true]
  intro x hx
  rw [hdisj x hx]
  rfl

/-- Claim C4: `removeUser` is idempotent — immediately repeating
`removeUser id` leaves the state exactly as after the first call,
removes nothing and notifies no one. -/
theorem removeUser_idempotent (st : ServerState) (id : SessionId) :
    removeUser (removeUser st id).1 id = ((removeUser st id).1, []) := by
  have hf : (st.waitingQueue.filter (fun u => u != id)).filter (fun u => u != id)
      = st.waitingQueue.filter (fun u => u != id) :=
    List.filter_eq_self.mpr (fun x hx => (List.mem_filter.mp hx).2)
  rcases hg : mapGet st.activePairs id with _ | partnerId
  · rw [removeUser_eq_none hg]
    simp only [removeUser, hg, hf]
  · have hg2 : mapGet (mapDelete (mapDelete st.activePairs id) partnerId) id = none := by
      rw [mapGet_mapDelete]
      by_cases h1 : id = partnerId
      · simp [h1]
      · rw [if_neg h1, mapGet_mapDelete, if_pos rfl]
    rw [removeUser_eq_some hg]
    simp only [removeUser, hg2, hf]

/-- Claim C5: when the sender is paired with a partner, each relay handler
delivers to that partner exactly one event of the same name carrying the
original payload plus `from` set to the sender (negotiation payloads),
resp. the message tagged `from: "Stranger"` with a timestamp (chat). -/
theorem relay_delivers_to_partner (st : ServerState) (id partnerId : SessionId)
    (payload message : String) (now : Nat)
    (h : mapGet st.activePairs id = some partnerId) :
    handleOffer st id payload = (st, [OutEvent.offer partnerId payload id]) ∧
    handleAnswer st id payload = (st, [OutEvent.answer partnerId payload id]) ∧
    handleIceCandidate st id payload = (st, [OutEvent.iceCandidate partnerId payload id]) ∧
    handleChatMessage st id message now =
      (st, [OutEvent.chatMessage partnerId message "Stranger" now]) := by
  refine ⟨?_, ?_, ?_, ?_⟩ <;>
    simp [handleOffer, handleAnswer, handleIceCandidate, handleChatMessage, h]

theorem relay_delivers_to_partner_witness :
    handleOffer ⟨[], [("a", "b"), ("b", "a")], []⟩ "a" "sdp1" =
      (⟨[], [("a", "b"), ("b", "a")], []⟩, [OutEvent.offer "b" "sdp1" "a"]) ∧
    handleChatMessage ⟨[], [("a", "b"), ("b", "a")], []⟩ "a" "hi" 5 =
      (⟨[], [("a", "b"), ("b", "a")], []⟩, [OutEvent.chatMessage "b" "hi" "Stranger" 5]) :=
  ⟨(relay_delivers_to_partner ⟨[], [("a", "b"), ("b", "a")], []⟩ "a" "b" "sdp1" "hi" 5
      (by decide)).1,
   (relay_delivers_to_partner ⟨[], [("a", "b"), ("b", "a")], []⟩ "a" "b" "sdp1" "hi" 5
      (by decide)).2.2.2⟩

/-- Claim C6: when the sender has no partner in the active pair table,
every relay handler delivers no event to anyone and leaves the state
unchanged — the message is silently dropped. -/
theorem relay_unpaired_drops (st : ServerState) (id : SessionId)
    (payload message : String) (now : Nat)
    (h : mapGet st.activePairs id = none) :
    handleOffer st id payload = (st, []) ∧
    handleAnswer st id payload = (st, []) ∧
    handleIceCandidate st id payload = (st, []) ∧
    handleChatMessage st id message now = (st, []) := by
  refine ⟨?_, ?_, ?_, ?_⟩ <;>
    simp [handleOffer, handleAnswer, handleIceCandidate, handleChatMessage, h]

theorem relay_unpaired_drops_witness :
    handleOffer ⟨[], [], []⟩ "a" "sdp1" = (⟨[], [], []⟩, []) ∧
    handleChatMessage ⟨[], [], []⟩ "a" "hi" 5 = (⟨[], [], []⟩, []) :=
  ⟨(relay_unpaired_drops ⟨[], [], []⟩ "a" "sdp1" "hi" 5 (by decide)).1,
   (relay_unpaired_drops ⟨[], [], []⟩ "a" "sdp1" "hi" 5 (by decide)).2.2.2⟩

/-- Claim C7: for distinct `a` and `b`, `insert_pair(a,b)` followed by
`remove(a)` returns partner `b` and deletes both the `a` and `b` entries,
and a subsequent `remove(b)` is a no-op returning absent. -/
theorem insertPair_remove_roundtrip (m : PairMap) (a b : SessionId) (hab : a ≠ b) :
    (tableRemove (insertPair m a b) a).2 = some b ∧
    mapGet (tableRemove (insertPair m a b) a).1 a = none ∧
    mapGet (tableRemove (insertPair m a b) a).1 b = none ∧
    tableRemove (tableRemove (insertPair m a b) a).1 b =
      ((tableRemove (insertPair m a b) a).1, none) := by
  have hget : mapGet (insertPair m a b) a = some b := by
    rw [insertPair, mapGet_mapSet, if_neg hab, mapGet_mapSet, if_pos rfl]
  have h1 : tableRemove (insertPair m a b) a =
      (mapDelete (mapDelete (insertPair m a b) a) b, some b) := by
    simp only [tableRemove, hget]
  rw [h1]
  have hgb : mapGet (mapDelete (mapDelete (insertPair m a b) a) b) b = none := by
    rw [mapGet_mapDelete, if_pos rfl]
  refine ⟨rfl, ?_, hgb, ?_⟩
  · rw [mapGet_mapDelete, if_neg hab, mapGet_mapDelete, if_pos rfl]
  · simp only [tableRemove, hgb]

theorem insertPair_remove_roundtrip_witness :
    (tableRemove (insertPair [] "a" "b") "a").2 = some "b" ∧
    mapGet (tableRemove (insertPair [] "a" "b") "a").1 "a" = none ∧
    mapGet (tableRemove (insertPair [] "a" "b") "a").1 "b" = none ∧
    tableRemove (tableRemove (insertPair [] "a" "b") "a").1 "b" =
      ((tableRemove (insertPair [] "a" "b") "a").1, none) :=
  insertPair_remove_roundtrip [] "a" "b" (by decide)

/-- Claim C8: for a paired session, `removeUser` deletes both directions
of the pair from the table, sends the former partner `partner-disconnected`
exactly when that partner's socket is still connected (silently skipping
otherwise), and afterwards the former partner's `get_partner` is absent. -/
theorem removeUser_paired (st : ServerState) (id partnerId : SessionId)
    (h : mapGet st.activePairs id = some partnerId) :
    mapGet (removeUser st id).1.activePairs id = none ∧
    mapGet (removeUser st id).1.activePairs partnerId = none ∧
    (removeUser st id).2 = (if st.connected.contains partnerId then
      [OutEvent.partnerDisconnected partnerId] else []) := by
  rw [removeUser_eq_some h]
  refine ⟨?_, ?_, rfl⟩
  · show mapGet (mapDelete (mapDelete st.activePairs id) partnerId) id = none
    by_cases h1 : id = partnerId
    · rw [mapGet_mapDelete, if_pos h1]
    · rw [mapGet_mapDelete, if_neg h1, mapGet_mapDelete, if_pos rfl]
  · show mapGet (mapDelete (mapDelete st.activePairs id) partnerId) partnerId = none
    rw [mapGet_mapDelete, if_pos rfl]

theorem removeUser_paired_witness :
    mapGet (removeUser ⟨[], [("a", "b"), ("b", "a")], ["b"]⟩ "a").1.activePairs "a" = none ∧
    mapGet (removeUser ⟨[], [("a", "b"), ("b", "a")], ["b"]⟩ "a").1.activePairs "b" = none ∧
    (removeUser ⟨[], [("a", "b"), ("b", "a")], ["b"]⟩ "a").2 =
      (if List.contains ["b"] "b" then [OutEvent.partnerDisconnected "b"] else []) :=
  removeUser_paired ⟨[], [("a", "b"), ("b", "a")], ["b"]⟩ "a" "b" (by decide)

/-- Claim C9: handling `next` has exactly the same effect on the waiting
queue, the active pair table, and the emitted notifications as handling
`start-search` for the same session: `removeUser` (leave), enqueue, emit
`searching`, then `pairUsers`. -/
theorem next_eq_startSearch (st : ServerState) (id : SessionId) :
    handleNext st id = handleStartSearch st id := rfl

/-- Claim C10: handling any inbound relay event (`offer`, `answer`,
`ice-candidate`, `chat-message`) leaves the server state — in particular
the waiting queue and the active pair table — exactly unchanged, whether
or not the sender has a partner. -/
theorem relay_events_frame (st : ServerState) (id : SessionId)
    (payload message : String) (now : Nat) :
    (handleEvent st (Event.offer id payload)).1 = st ∧
    (handleEvent st (Event.answer id payload)).1 = st ∧
    (handleEvent st (Event.iceCandidate id payload)).1 = st ∧
    (handleEvent st (Event.chatMessage id message now)).1 = st :=
  ⟨handleOffer_fst st id payload, handleAnswer_fst st id payload,
   handleIceCandidate_fst st id payload, handleChatMessage_fst st id message now⟩
